import Mathlib

/-!
A verification development for the portfolio synthetic-call transformer
(the Streamlit `app.py`).  The core function `process_portfolio` is embedded
shallowly: pandas rows become `Position` records over `ℚ` (the source works
with Python floats; the algorithm only uses the field/order operations
`+ - * min < ≤`, which we interpret exactly over the rationals), the
in-place normalisation of the input frame's `Instrument` column is made
explicit by returning the mutated frame, a NaN strike is `Option.none`,
and the while-loop that consumes the stock ledger becomes a well-founded
recursion with the same guard and body.
-/

namespace SCT

/-! ### Characters and instrument names

`df['Instrument'].str.strip().str.lower()`: instrument names are lists of
characters; `strip` removes leading and trailing whitespace and `lower`
maps upper-case ASCII letters to lower case (`Char.toLower`, which agrees
with Python's `str.lower` on the ASCII names the program compares
against). -/

/-- Python `str.strip` whitespace (space, tab, newline, carriage return,
vertical tab, form feed), by code point. -/
def isWspChar (c : Char) : Bool :=
  decide (c.toNat = 32 ∨ c.toNat = 9 ∨ c.toNat = 10 ∨ c.toNat = 13 ∨
    c.toNat = 11 ∨ c.toNat = 12)

/-- `str.strip()` on a list of characters. -/
def strip (l : List Char) : List Char :=
  ((l.dropWhile isWspChar).reverse.dropWhile isWspChar).reverse

/-- `str.lower()` on a list of characters (ASCII fragment). -/
def lower (l : List Char) : List Char := l.map Char.toLower

/-- `.str.strip().str.lower()` applied to one instrument name
(line 79 of the source). -/
def normInst (l : List Char) : List Char := lower (strip l)

/-- Does `pat` start the second list? -/
def leadsWith : List Char → List Char → Bool
  | [], _ => true
  | _ :: _, [] => false
  | a :: pas, b :: bs => a == b && leadsWith pas bs

/-- Does `pat` occur as a contiguous substring?  (`str.contains` with a
pattern free of regex metacharacters, as `'put'` and `'call'` are.) -/
def containsSub : List Char → List Char → Bool
  | [], pat => pat.isEmpty
  | a :: t, pat => leadsWith pat (a :: t) || containsSub t pat

/-! ### Data model -/

/-- One input row: `Instrument`, `Position`, `Strike`, `Market price`.
A missing/NaN strike is `none`. -/
structure Position where
  instrument : List Char
  position : ℚ
  strike : Option ℚ
  marketPrice : ℚ
deriving DecidableEq

/-- The remaining consumable stock-like quantity, split into the two
sources (`remaining_futures`, `remaining_cash` in the source). -/
structure Ledger where
  fut : ℚ
  cash : ℚ
deriving DecidableEq

/-- The `Source` column of the transformation log. -/
inductive Source
  | Futures
  | Cash
  | Puts
deriving DecidableEq

/-- The `Action` column of the transformation log. -/
inductive Action
  | CreateSyntheticCall
  | UnmatchedPuts
deriving DecidableEq

/-- One transformation-log row (source lines 148-156 and 160-168).  The
`Step` column is omitted: it is `len(transformation_log) + 1` at append
time, i.e. exactly the 1-based index of the entry in the final list.
`'N/A'` in the `Synthetic Value` column is `none`. -/
structure LogEntry where
  action : Action
  source : Source
  amount : ℚ
  putStrike : ℚ
  putPrice : ℚ
  syntheticValue : Option ℚ
deriving DecidableEq

/-- One `synthetic_calls` record (source lines 138-145).  The constant
`Type` field is omitted; the `Created From` display string
`f'{Source} + Put@{strike}'` is kept as its information content, the
drawn-from source (the strike is the `strike` field). -/
structure SynLot where
  strike : ℚ
  position : ℚ
  valuePerUnit : ℚ
  totalValue : ℚ
  createdFrom : Source
deriving DecidableEq

/-- The `Type` column of a final-portfolio row. -/
inductive RowType
  | FuturesRow
  | CashRow
  | SyntheticCall
  | OriginalCall
  | UnmatchedPut
deriving DecidableEq

/-- The `Risk Type` column of a final-portfolio row. -/
inductive RiskType
  | LongStock
  | CallLike
  | PutProtection
deriving DecidableEq

/-- One row of the final portfolio (source lines 174-239). -/
structure FinalRow where
  type : RowType
  strike : Option ℚ
  position : ℚ
  valuePerUnit : ℚ
  totalValue : ℚ
  riskType : RiskType
deriving DecidableEq

/-- What the while-loop over one put lot produces: the log entries and
synthetic lots it appends, the ledger it leaves behind, and
`puts_to_process` when it exits. -/
structure LotResult where
  log : List LogEntry
  syn : List SynLot
  led : Ledger
  leftover : ℚ
deriving DecidableEq

/-- What the loop over all put lots produces. -/
structure AllocResult where
  log : List LogEntry
  syn : List SynLot
  led : Ledger
deriving DecidableEq

/-- The values `process_portfolio` computes: its returned triple
(`final_portfolio`, `transformation_log`, `underlying_price`) together
with the internal final values `synthetic_calls`, `remaining_futures`
and `remaining_cash`, exposed so that properties can name them. -/
structure RunResult where
  final_portfolio : List FinalRow
  transformation_log : List LogEntry
  synthetic_calls : List SynLot
  remaining_futures : ℚ
  remaining_cash : ℚ
  underlying_price : ℚ
deriving DecidableEq

instance : Inhabited RunResult := ⟨⟨[], [], [], 0, 0, 0⟩⟩

/-! ### Row classification (source lines 82-85, applied to the normalised
instrument column) -/

def isFuturesRow (p : Position) : Bool := p.instrument == "futures".toList

def isCashRow (p : Position) : Bool := p.instrument == "cash".toList

def isPutRow (p : Position) : Bool := containsSub p.instrument "put".toList

def isCallRow (p : Position) : Bool := containsSub p.instrument "call".toList

/-! ### Underlying price (source lines 88-94) -/

/-- First-futures-row price, else first-cash-row price, else failure. -/
def underlying_price (futures cash : List Position) : Option ℚ :=
  match futures with
  | f :: _ => some f.marketPrice
  | [] =>
    match cash with
    | c :: _ => some c.marketPrice
    | [] => none

/-! ### Put sorting (source line 101)

`sort_values('Strike', ascending=False)` sorts by descending strike and
places NaN strikes last.  We realise it with `List.insertionSort` over
the corresponding total preorder; the claims do not depend on the within
strike tie order (pandas' default `quicksort` does not fix it either). -/

/-- `a` may come before `b`: descending strike, `none` (NaN) last. -/
def strikeDescLeB (a b : Option ℚ) : Bool :=
  match a, b with
  | some x, some y => y ≤ x
  | some _, none => true
  | none, some _ => false
  | none, none => true

def strikeDescRel (a b : Position) : Prop := strikeDescLeB a.strike b.strike = true

instance : DecidableRel strikeDescRel := fun a b =>
  inferInstanceAs (Decidable (_ = true))

def sortPuts (puts : List Position) : List Position :=
  List.insertionSort strikeDescRel puts

/-! ### The allocation loop (source lines 117-168) -/

/-- Measure for the inner while loop: every guarded iteration either
zeroes `puts_to_process` or zeroes one ledger source. -/
def lotMeasure (p : ℚ) (led : Ledger) : Nat :=
  (if 0 < led.fut then 2 else 0) + (if 0 < led.cash then 2 else 0) +
    (if 0 < p then 1 else 0)

/-- The `while puts_to_process > 0 and (remaining_futures > 0 or
remaining_cash > 0)` loop for one put lot (source lines 121-156):
draw `min(puts_to_process, remaining_futures)` from futures while any
remain, else `min(puts_to_process, remaining_cash)` from cash, emit the
synthetic-call record and the log entry, and continue. -/
def allocLot (u strike price : ℚ) (p : ℚ) (led : Ledger) : LotResult :=
  if h : 0 < p ∧ (0 < led.fut ∨ 0 < led.cash) then
    if hf : 0 < led.fut then
      let r := allocLot u strike price (p - min p led.fut)
        ⟨led.fut - min p led.fut, led.cash⟩
      ⟨⟨Action.CreateSyntheticCall, Source.Futures, min p led.fut, strike, price,
          some (price + (u - strike))⟩ :: r.log,
        ⟨strike, min p led.fut, price + (u - strike),
          min p led.fut * (price + (u - strike)), Source.Futures⟩ :: r.syn,
        r.led, r.leftover⟩
    else
      let r := allocLot u strike price (p - min p led.cash)
        ⟨led.fut, led.cash - min p led.cash⟩
      ⟨⟨Action.CreateSyntheticCall, Source.Cash, min p led.cash, strike, price,
          some (price + (u - strike))⟩ :: r.log,
        ⟨strike, min p led.cash, price + (u - strike),
          min p led.cash * (price + (u - strike)), Source.Cash⟩ :: r.syn,
        r.led, r.leftover⟩
  else ⟨[], [], led, p⟩
termination_by lotMeasure p led
decreasing_by
  · rcases h with ⟨hp, _⟩
    rcases min_choice p led.fut with hm | hm <;>
      simp only [lotMeasure, hm] <;> split_ifs <;> first | omega | linarith
  · rcases h with ⟨hp, hor⟩
    have hc : 0 < led.cash := hor.resolve_left hf
    rcases min_choice p led.cash with hm | hm <;>
      simp only [lotMeasure, hm] <;> split_ifs <;> first | omega | linarith

/-- The loop over the sorted put rows (source lines 111-168).  Iterating
the distinct strikes of the sorted column and then the rows at each
strike visits exactly the sorted rows in order, NaN strikes skipped:
sorting is by strike, so equal strikes are contiguous, and `unique()` on
the sorted column lists the strikes in that same order. After a lot's
loop, a leftover `puts_to_process > 0` appends one UnmatchedPuts log
entry (lines 159-168). -/
def allocLots (u : ℚ) : List Position → Ledger → AllocResult
  | [], led => ⟨[], [], led⟩
  | lot :: rest, led =>
    match lot.strike with
    | none => allocLots u rest led
    | some k =>
      let r1 := allocLot u k lot.marketPrice lot.position led
      let extra : List LogEntry :=
        if 0 < r1.leftover then
          [⟨Action.UnmatchedPuts, Source.Puts, r1.leftover, k, lot.marketPrice, none⟩]
        else []
      let r2 := allocLots u rest r1.led
      ⟨r1.log ++ extra ++ r2.log, r1.syn ++ r2.syn, r2.led⟩

/-! ### Unmatched-put re-attribution (source lines 221-239) -/

/-- Walk the sorted put rows again, greedily assigning
`min(row_position, unmatched_remaining)` to each row as an UnmatchedPut
output row while any unmatched quantity remains (source comment: the
logic to identify which specific puts remain unmatched "is simplified
for now"). -/
def greedyUnmatched : List Position → ℚ → List FinalRow
  | [], _ => []
  | lot :: rest, rem =>
    if rem ≤ 0 then []
    else
      if 0 < min lot.position rem then
        ⟨RowType.UnmatchedPut, lot.strike, min lot.position rem, lot.marketPrice,
            min lot.position rem * lot.marketPrice, RiskType.PutProtection⟩ ::
          greedyUnmatched rest (rem - min lot.position rem)
      else greedyUnmatched rest rem

/-! ### The whole transformation -/

def sumPositions (l : List Position) : ℚ := (l.map Position.position).sum

def total_futures (df : List Position) : ℚ := sumPositions (df.filter isFuturesRow)

def total_cash (df : List Position) : ℚ := sumPositions (df.filter isCashRow)

def total_puts (df : List Position) : ℚ := sumPositions (df.filter isPutRow)

/-- The whole put allocation a run performs (source lines 100-168): the
puts sorted by descending strike, consumed against the ledger of summed
futures and cash. -/
def allocOf (df : List Position) (u : ℚ) : AllocResult :=
  allocLots u (sortPuts (df.filter isPutRow)) ⟨total_futures df, total_cash df⟩

/-- `matched_puts` of source line 218: total stock minus what remains. -/
def matchedOf (df : List Position) (u : ℚ) : ℚ :=
  total_futures df + total_cash df - (allocOf df u).led.fut -
    (allocOf df u).led.cash

/-- `unmatched_puts` of source line 219, recomputed from totals. -/
def unmatchedOf (df : List Position) (u : ℚ) : ℚ :=
  total_puts df - matchedOf df u

/-- Lines 96-241 of `process_portfolio`, the part after the underlying
price has been resolved to `u` (everything there is total): allocate
puts against the ledger and assemble the final portfolio. -/
def assemble (df : List Position) (u : ℚ) : RunResult :=
  let a := allocOf df u
  let final_portfolio : List FinalRow :=
    (if 0 < a.led.fut then
      [⟨RowType.FuturesRow, none, a.led.fut, u, a.led.fut * u, RiskType.LongStock⟩]
    else []) ++
    (if 0 < a.led.cash then
      [⟨RowType.CashRow, none, a.led.cash, u, a.led.cash * u, RiskType.LongStock⟩]
    else []) ++
    a.syn.map (fun sc =>
      ⟨RowType.SyntheticCall, some sc.strike, sc.position, sc.valuePerUnit,
        sc.totalValue, RiskType.CallLike⟩) ++
    (df.filter isCallRow).map (fun c =>
      ⟨RowType.OriginalCall, c.strike, c.position, c.marketPrice,
        c.position * c.marketPrice, RiskType.CallLike⟩) ++
    (if 0 < unmatchedOf df u then
      greedyUnmatched (sortPuts (df.filter isPutRow)) (unmatchedOf df u)
    else [])
  ⟨final_portfolio, a.log, a.syn, a.led.fut, a.led.cash, u⟩

/-- Lines 82-241 of `process_portfolio`, i.e. everything after the
in-place instrument normalisation: classify rows, resolve the underlying
price (`none` models the `st.error` + `return None, None, None` path, on
which nothing is produced), then allocate and assemble. -/
def processNormalized (df : List Position) : Option RunResult :=
  match underlying_price (df.filter isFuturesRow) (df.filter isCashRow) with
  | none => none
  | some u => some (assemble df u)

/-- Normalisation of the `Instrument` column, applied by line 79 to the
caller's frame in place. -/
def normalizeFrame (df : List Position) : List Position :=
  df.map (fun p => { p with instrument := normInst p.instrument })

/-- `process_portfolio`: line 79 mutates the caller's frame (its
`Instrument` column is overwritten with the normalised names), then the
transformation runs on the mutated frame.  The pair is (returned result,
state of the caller's frame after the call). -/
def process_portfolio (df : List Position) : Option RunResult × List Position :=
  (processNormalized (normalizeFrame df), normalizeFrame df)

/-! ### The sample data (source lines 64-72) -/

def load_sample_data : List Position :=
  [⟨"Futures".toList, 100000, none, 1191⟩,
   ⟨"Cash".toList, 200000, none, 1190⟩,
   ⟨"Puts".toList, 5000, some 1240, 60⟩,
   ⟨"Puts".toList, 10000, some 1230, 65⟩,
   ⟨"Puts".toList, 100000, some 1200, 25⟩,
   ⟨"Puts".toList, 100000, some 1150, 8⟩,
   ⟨"Puts".toList, 100000, some 1100, 4⟩,
   ⟨"Calls".toList, 100000, some 1200, 12⟩,
   ⟨"Calls".toList, 11000, some 1250, 4⟩,
   ⟨"Calls".toList, 11000, some 1150, 62⟩]

/-! ### Observations used to state the properties -/

/-- Total quantity of a list of synthetic-call lots. -/
def sumSyn (l : List SynLot) : ℚ := (l.map SynLot.position).sum

/-- The futures quantity drawn by the CreateSyntheticCall entries of a
log segment; the futures balance at any point of a run is the initial
balance minus `futDrawn` of the log before that point. -/
def futDrawn (l : List LogEntry) : ℚ :=
  (l.map (fun e =>
    if e.action = Action.CreateSyntheticCall ∧ e.source = Source.Futures then
      e.amount
    else 0)).sum

/-- Walk a log replaying the futures balance from `fut`: at every
CreateSyntheticCall entry drawn from Cash the futures balance at that
step must not be positive. -/
def cashPriorityOk : ℚ → List LogEntry → Bool
  | _, [] => true
  | fut, e :: rest =>
    (if e.action = Action.CreateSyntheticCall ∧ e.source = Source.Cash then
      decide (fut ≤ 0)
    else true) &&
      cashPriorityOk
        (fut - (if e.action = Action.CreateSyntheticCall ∧ e.source = Source.Futures then
          e.amount
        else 0)) rest

def isCreateEntry (e : LogEntry) : Bool := e.action == Action.CreateSyntheticCall

/-- The `Put Strike` column restricted to CreateSyntheticCall entries,
in step order. -/
def createStrikes (l : List LogEntry) : List ℚ :=
  (l.filter isCreateEntry).map LogEntry.putStrike

/-- CreateSyntheticCall entries drawn from a given source. -/
def countSource (l : List LogEntry) (s : Source) : Nat :=
  (l.filter (fun e => isCreateEntry e && e.source == s)).length

/-- Synthetic-call quantity consumed against the put lot(s) at strike `k`. -/
def synQtyAtStrike (r : RunResult) (k : ℚ) : ℚ :=
  ((r.synthetic_calls.filter (fun sc => sc.strike == k)).map SynLot.position).sum

/-- UnmatchedPut quantity the final portfolio attributes to strike `k`. -/
def unmatchedQtyAtStrike (r : RunResult) (k : ℚ) : ℚ :=
  ((r.final_portfolio.filter (fun row =>
    row.type == RowType.UnmatchedPut && row.strike == some k)).map FinalRow.position).sum

/-- Total quantity over all UnmatchedPut rows of the final portfolio. -/
def unmatchedQtyTotal (r : RunResult) : ℚ :=
  ((r.final_portfolio.filter (fun row =>
    row.type == RowType.UnmatchedPut)).map FinalRow.position).sum

/-- Number of final-portfolio rows of a given type. -/
def countRows (r : RunResult) (t : RowType) : Nat :=
  (r.final_portfolio.filter (fun row => row.type == t)).length

/-! ### Concrete frames and their run results -/

/-- `load_sample_data` after the in-place instrument normalisation. -/
def sampleNormalized : List Position :=
  [⟨"futures".toList, 100000, none, 1191⟩,
   ⟨"cash".toList, 200000, none, 1190⟩,
   ⟨"puts".toList, 5000, some 1240, 60⟩,
   ⟨"puts".toList, 10000, some 1230, 65⟩,
   ⟨"puts".toList, 100000, some 1200, 25⟩,
   ⟨"puts".toList, 100000, some 1150, 8⟩,
   ⟨"puts".toList, 100000, some 1100, 4⟩,
   ⟨"calls".toList, 100000, some 1200, 12⟩,
   ⟨"calls".toList, 11000, some 1250, 4⟩,
   ⟨"calls".toList, 11000, some 1150, 62⟩]

/-- The put rows of the (normalised) sample frame, already in descending
strike order. -/
def samplePuts : List Position :=
  [⟨"puts".toList, 5000, some 1240, 60⟩,
   ⟨"puts".toList, 10000, some 1230, 65⟩,
   ⟨"puts".toList, 100000, some 1200, 25⟩,
   ⟨"puts".toList, 100000, some 1150, 8⟩,
   ⟨"puts".toList, 100000, some 1100, 4⟩]

/-- The call rows of the (normalised) sample frame. -/
def sampleCalls : List Position :=
  [⟨"calls".toList, 100000, some 1200, 12⟩,
   ⟨"calls".toList, 11000, some 1250, 4⟩,
   ⟨"calls".toList, 11000, some 1150, 62⟩]

/-- The transformation log the sample run produces. -/
def sampleLog : List LogEntry :=
  [⟨Action.CreateSyntheticCall, Source.Futures, 5000, 1240, 60, some 11⟩,
   ⟨Action.CreateSyntheticCall, Source.Futures, 10000, 1230, 65, some 26⟩,
   ⟨Action.CreateSyntheticCall, Source.Futures, 85000, 1200, 25, some 16⟩,
   ⟨Action.CreateSyntheticCall, Source.Cash, 15000, 1200, 25, some 16⟩,
   ⟨Action.CreateSyntheticCall, Source.Cash, 100000, 1150, 8, some 49⟩,
   ⟨Action.CreateSyntheticCall, Source.Cash, 85000, 1100, 4, some 95⟩,
   ⟨Action.UnmatchedPuts, Source.Puts, 15000, 1100, 4, none⟩]

/-- The synthetic-call lots the sample run produces. -/
def sampleSyn : List SynLot :=
  [⟨1240, 5000, 11, 55000, Source.Futures⟩,
   ⟨1230, 10000, 26, 260000, Source.Futures⟩,
   ⟨1200, 85000, 16, 1360000, Source.Futures⟩,
   ⟨1200, 15000, 16, 240000, Source.Cash⟩,
   ⟨1150, 100000, 49, 4900000, Source.Cash⟩,
   ⟨1100, 85000, 95, 8075000, Source.Cash⟩]

/-- What `process_portfolio` computes on the sample data. -/
def sampleResult : RunResult :=
  ⟨[⟨RowType.SyntheticCall, some 1240, 5000, 11, 55000, RiskType.CallLike⟩,
    ⟨RowType.SyntheticCall, some 1230, 10000, 26, 260000, RiskType.CallLike⟩,
    ⟨RowType.SyntheticCall, some 1200, 85000, 16, 1360000, RiskType.CallLike⟩,
    ⟨RowType.SyntheticCall, some 1200, 15000, 16, 240000, RiskType.CallLike⟩,
    ⟨RowType.SyntheticCall, some 1150, 100000, 49, 4900000, RiskType.CallLike⟩,
    ⟨RowType.SyntheticCall, some 1100, 85000, 95, 8075000, RiskType.CallLike⟩,
    ⟨RowType.OriginalCall, some 1200, 100000, 12, 1200000, RiskType.CallLike⟩,
    ⟨RowType.OriginalCall, some 1250, 11000, 4, 44000, RiskType.CallLike⟩,
    ⟨RowType.OriginalCall, some 1150, 11000, 62, 682000, RiskType.CallLike⟩,
    ⟨RowType.UnmatchedPut, some 1240, 5000, 60, 300000, RiskType.PutProtection⟩,
    ⟨RowType.UnmatchedPut, some 1230, 10000, 65, 650000, RiskType.PutProtection⟩],
   sampleLog, sampleSyn, 0, 0, 1191⟩

/-- 50 futures against a 100-lot put at strike 1200 and a 100-lot put at
strike 1100: only 50 of the 1200 lot is consumed, yet the re-attribution
pass hands the whole 150 unmatched quantity out from the top strike
down. -/
def misattributionFrame : List Position :=
  [⟨"futures".toList, 50, none, 1250⟩,
   ⟨"puts".toList, 100, some 1200, 10⟩,
   ⟨"puts".toList, 100, some 1100, 5⟩]

/-- What `process_portfolio` computes on `misattributionFrame`. -/
def misattributionResult : RunResult :=
  ⟨[⟨RowType.SyntheticCall, some 1200, 50, 60, 3000, RiskType.CallLike⟩,
    ⟨RowType.UnmatchedPut, some 1200, 100, 10, 1000, RiskType.PutProtection⟩,
    ⟨RowType.UnmatchedPut, some 1100, 50, 5, 250, RiskType.PutProtection⟩],
   [⟨Action.CreateSyntheticCall, Source.Futures, 50, 1200, 10, some 60⟩,
    ⟨Action.UnmatchedPuts, Source.Puts, 50, 1200, 10, none⟩,
    ⟨Action.UnmatchedPuts, Source.Puts, 100, 1100, 5, none⟩],
   [⟨1200, 50, 60, 3000, Source.Futures⟩],
   0, 0, 1250⟩

/-- 50 futures and a put lot with a NaN strike: the lot is skipped by the
allocation, but it still counts into `total_puts` and receives an
UnmatchedPut row. -/
def nanPutFrame : List Position :=
  [⟨"futures".toList, 50, none, 100⟩,
   ⟨"puts".toList, 100, none, 5⟩]

/-- What `process_portfolio` computes on `nanPutFrame`. -/
def nanPutResult : RunResult :=
  ⟨[⟨RowType.FuturesRow, none, 50, 100, 5000, RiskType.LongStock⟩,
    ⟨RowType.UnmatchedPut, none, 100, 5, 500, RiskType.PutProtection⟩],
   [], [], 50, 0, 100⟩

/-! ### Order instances for the put sort -/

instance : IsTotal Position strikeDescRel where
  total a b := by
    unfold strikeDescRel strikeDescLeB
    rcases a.strike with _ | x <;> rcases b.strike with _ | y <;>
      simp [le_total]

instance : IsTrans Position strikeDescRel where
  trans a b c := by
    unfold strikeDescRel strikeDescLeB
    rcases a.strike with _ | x <;> rcases b.strike with _ | y <;>
      rcases c.strike with _ | z <;> simp
    exact fun h1 h2 => le_trans h2 h1

/-! ## Unfolding the while loop

The three equations below are the loop semantics of source lines
121-156: one guarded iteration from the futures branch, one from the
cash branch, and the exit. -/

theorem allocLot_of_fut {u strike price p : ℚ} {led : Ledger} (h : 0 < p)
    (hf : 0 < led.fut) :
    allocLot u strike price p led =
      ⟨⟨Action.CreateSyntheticCall, Source.Futures, min p led.fut, strike, price,
          some (price + (u - strike))⟩ ::
          (allocLot u strike price (p - min p led.fut)
            ⟨led.fut - min p led.fut, led.cash⟩).log,
        ⟨strike, min p led.fut, price + (u - strike),
          min p led.fut * (price + (u - strike)), Source.Futures⟩ ::
          (allocLot u strike price (p - min p led.fut)
            ⟨led.fut - min p led.fut, led.cash⟩).syn,
        (allocLot u strike price (p - min p led.fut)
          ⟨led.fut - min p led.fut, led.cash⟩).led,
        (allocLot u strike price (p - min p led.fut)
          ⟨led.fut - min p led.fut, led.cash⟩).leftover⟩ := by
  rw [allocLot]
  rw [dif_pos ⟨h, Or.inl hf⟩, dif_pos hf]

theorem allocLot_of_cash {u strike price p : ℚ} {led : Ledger} (h : 0 < p)
    (hf : ¬ 0 < led.fut) (hc : 0 < led.cash) :
    allocLot u strike price p led =
      ⟨⟨Action.CreateSyntheticCall, Source.Cash, min p led.cash, strike, price,
          some (price + (u - strike))⟩ ::
          (allocLot u strike price (p - min p led.cash)
            ⟨led.fut, led.cash - min p led.cash⟩).log,
        ⟨strike, min p led.cash, price + (u - strike),
          min p led.cash * (price + (u - strike)), Source.Cash⟩ ::
          (allocLot u strike price (p - min p led.cash)
            ⟨led.fut, led.cash - min p led.cash⟩).syn,
        (allocLot u strike price (p - min p led.cash)
          ⟨led.fut, led.cash - min p led.cash⟩).led,
        (allocLot u strike price (p - min p led.cash)
          ⟨led.fut, led.cash - min p led.cash⟩).leftover⟩ := by
  rw [allocLot]
  rw [dif_pos ⟨h, Or.inr hc⟩, dif_neg hf]

theorem allocLot_done {u strike price p : ℚ} {led : Ledger}
    (h : ¬ (0 < p ∧ (0 < led.fut ∨ 0 < led.cash))) :
    allocLot u strike price p led = ⟨[], [], led, p⟩ := by
  rw [allocLot, dif_neg h]

/-! ## The instrument normalisation is idempotent -/

theorem toNat_ofNat_valid {n : Nat} (h : n.isValidChar) :
    (Char.ofNat n).toNat = n := by
  unfold Char.ofNat
  rw [dif_pos h]
  rfl

theorem toLower_toLower (c : Char) : c.toLower.toLower = c.toLower := by
  unfold Char.toLower
  by_cases h : c.toNat ≥ 65 ∧ c.toNat ≤ 90
  · rw [if_pos h]
    have ht : (Char.ofNat (c.toNat + 32)).toNat = c.toNat + 32 :=
      toNat_ofNat_valid (Or.inl (by omega))
    rw [ht, if_neg (by omega)]
  · rw [if_neg h, if_neg h]

theorem isWspChar_toLower (c : Char) : isWspChar c.toLower = isWspChar c := by
  unfold Char.toLower
  by_cases h : c.toNat ≥ 65 ∧ c.toNat ≤ 90
  · rw [if_pos h]
    have ht : (Char.ofNat (c.toNat + 32)).toNat = c.toNat + 32 :=
      toNat_ofNat_valid (Or.inl (by omega))
    unfold isWspChar
    rw [ht]
    exact decide_eq_decide.mpr (by constructor <;> intro hh <;> omega)
  · rw [if_neg h]

theorem lower_lower (l : List Char) : lower (lower l) = lower l := by
  unfold lower
  rw [List.map_map]
  exact List.map_congr_left fun a _ => toLower_toLower a

theorem dropWhile_dropWhile {α : Type} (p : α → Bool) (l : List α) :
    (l.dropWhile p).dropWhile p = l.dropWhile p := by
  induction l with
  | nil => rfl
  | cons a t ih =>
    by_cases h : p a
    · simp [List.dropWhile_cons, h, ih]
    · simp [List.dropWhile_cons, h]

theorem dropWhile_eq_self_of_head {α : Type} {p : α → Bool} {l : List α}
    (h : ∀ a, l.head? = some a → p a = false) : l.dropWhile p = l := by
  cases l with
  | nil => rfl
  | cons a t => simp [List.dropWhile_cons, h a rfl]

theorem getLast?_dropWhile {α : Type} (p : α → Bool) (l : List α)
    (h : l.dropWhile p ≠ []) : (l.dropWhile p).getLast? = l.getLast? := by
  induction l with
  | nil => simp at h
  | cons a t ih =>
    by_cases hp : p a
    · rw [List.dropWhile_cons_of_pos hp] at h ⊢
      rw [ih h]
      cases t with
      | nil => simp at h
      | cons b t' => rw [List.getLast?_cons_cons]
    · rw [List.dropWhile_cons_of_neg hp]

theorem strip_head?_not (l : List Char) :
    ∀ a, (strip l).head? = some a → isWspChar a = false := by
  intro a ha
  unfold strip at ha
  rw [List.head?_reverse] at ha
  by_cases hnil : (l.dropWhile isWspChar).reverse.dropWhile isWspChar = []
  · rw [hnil] at ha
    simp at ha
  · rw [getLast?_dropWhile _ _ hnil, List.getLast?_reverse] at ha
    have hh := List.head?_dropWhile_not isWspChar l
    rw [ha] at hh
    exact hh

theorem dropWhile_strip (l : List Char) :
    (strip l).dropWhile isWspChar = strip l :=
  dropWhile_eq_self_of_head (strip_head?_not l)

theorem dropWhile_reverse_strip (l : List Char) :
    (strip l).reverse.dropWhile isWspChar = (strip l).reverse := by
  unfold strip
  rw [List.reverse_reverse]
  exact dropWhile_dropWhile _ _

theorem strip_strip (l : List Char) : strip (strip l) = strip l := by
  calc strip (strip l)
      = (((strip l).dropWhile isWspChar).reverse.dropWhile isWspChar).reverse := rfl
    _ = ((strip l).reverse.dropWhile isWspChar).reverse := by rw [dropWhile_strip]
    _ = (strip l).reverse.reverse := by rw [dropWhile_reverse_strip]
    _ = strip l := List.reverse_reverse _

theorem strip_lower (l : List Char) : strip (lower l) = lower (strip l) := by
  have hp : (isWspChar ∘ Char.toLower) = isWspChar := funext isWspChar_toLower
  unfold strip lower
  rw [List.dropWhile_map, hp, ← List.map_reverse, List.dropWhile_map, hp,
    ← List.map_reverse]

theorem normInst_normInst (l : List Char) : normInst (normInst l) = normInst l := by
  unfold normInst
  rw [strip_lower, lower_lower, strip_strip]

theorem normalizeFrame_normalizeFrame (df : List Position) :
    normalizeFrame (normalizeFrame df) = normalizeFrame df := by
  unfold normalizeFrame
  rw [List.map_map]
  exact List.map_congr_left fun p _ => by simp [normInst_normInst]

/-! ## Invariants of one lot's loop -/

theorem allocLot_nonpos {u strike price p : ℚ} {led : Ledger} (h : p ≤ 0) :
    allocLot u strike price p led = ⟨[], [], led, p⟩ :=
  allocLot_done (by rintro ⟨hp, -⟩; linarith)

theorem allocLot_conservation (u strike price p : ℚ) (led : Ledger) :
    sumSyn (allocLot u strike price p led).syn +
        (allocLot u strike price p led).led.fut +
        (allocLot u strike price p led).led.cash = led.fut + led.cash := by
  induction p, led using allocLot.induct u strike price with
  | case1 p led h hf ih =>
    rw [allocLot_of_fut h.1 hf]
    simp only [sumSyn, List.map_cons, List.sum_cons] at ih ⊢
    linarith
  | case2 p led h hf ih =>
    have hc : 0 < led.cash := h.2.resolve_left hf
    rw [allocLot_of_cash h.1 hf hc]
    simp only [sumSyn, List.map_cons, List.sum_cons] at ih ⊢
    linarith
  | case3 p led h =>
    rw [allocLot_done h]
    simp [sumSyn]

theorem allocLot_fut_le (u strike price p : ℚ) (led : Ledger) :
    (allocLot u strike price p led).led.fut ≤ led.fut := by
  induction p, led using allocLot.induct u strike price with
  | case1 p led h hf ih =>
    rw [allocLot_of_fut h.1 hf]
    have hm : 0 < min p led.fut := lt_min h.1 hf
    simp only [Ledger.fut] at ih ⊢
    linarith
  | case2 p led h hf ih =>
    have hc : 0 < led.cash := h.2.resolve_left hf
    rw [allocLot_of_cash h.1 hf hc]
    simpa using ih
  | case3 p led h =>
    rw [allocLot_done h]

theorem allocLot_cash_le (u strike price p : ℚ) (led : Ledger) :
    (allocLot u strike price p led).led.cash ≤ led.cash := by
  induction p, led using allocLot.induct u strike price with
  | case1 p led h hf ih =>
    rw [allocLot_of_fut h.1 hf]
    simpa using ih
  | case2 p led h hf ih =>
    have hc : 0 < led.cash := h.2.resolve_left hf
    rw [allocLot_of_cash h.1 hf hc]
    have hm : 0 < min p led.cash := lt_min h.1 hc
    simp only [Ledger.cash] at ih ⊢
    linarith
  | case3 p led h =>
    rw [allocLot_done h]

theorem allocLot_fut_eq (u strike price p : ℚ) (led : Ledger) :
    (allocLot u strike price p led).led.fut =
      led.fut - futDrawn (allocLot u strike price p led).log := by
  induction p, led using allocLot.induct u strike price with
  | case1 p led h hf ih =>
    rw [allocLot_of_fut h.1 hf]
    simp only [futDrawn, List.map_cons, List.sum_cons] at ih ⊢
    simp at ih ⊢
    linarith
  | case2 p led h hf ih =>
    have hc : 0 < led.cash := h.2.resolve_left hf
    rw [allocLot_of_cash h.1 hf hc]
    simp only [futDrawn, List.map_cons, List.sum_cons] at ih ⊢
    simp at ih ⊢
    linarith
  | case3 p led h =>
    rw [allocLot_done h]
    simp [futDrawn]

theorem allocLot_cashPriority (u strike price p : ℚ) (led : Ledger) :
    cashPriorityOk led.fut (allocLot u strike price p led).log = true := by
  induction p, led using allocLot.induct u strike price with
  | case1 p led h hf ih =>
    rw [allocLot_of_fut h.1 hf]
    simp only [cashPriorityOk, Bool.and_eq_true]
    simp at ih ⊢
    simpa using ih
  | case2 p led h hf ih =>
    have hc : 0 < led.cash := h.2.resolve_left hf
    rw [allocLot_of_cash h.1 hf hc]
    simp only [cashPriorityOk, Bool.and_eq_true]
    simp at ih ⊢
    exact ⟨not_lt.mp hf, by simpa using ih⟩
  | case3 p led h =>
    rw [allocLot_done h]
    rfl

theorem allocLot_log_all (u strike price p : ℚ) (led : Ledger) :
    ∀ e ∈ (allocLot u strike price p led).log,
      e.action = Action.CreateSyntheticCall ∧ e.putStrike = strike ∧
        e.putPrice = price ∧ e.syntheticValue = some (price + (u - strike)) := by
  induction p, led using allocLot.induct u strike price with
  | case1 p led h hf ih =>
    rw [allocLot_of_fut h.1 hf]
    intro e he
    rcases List.mem_cons.mp he with rfl | he'
    · exact ⟨rfl, rfl, rfl, rfl⟩
    · exact ih e he'
  | case2 p led h hf ih =>
    have hc : 0 < led.cash := h.2.resolve_left hf
    rw [allocLot_of_cash h.1 hf hc]
    intro e he
    rcases List.mem_cons.mp he with rfl | he'
    · exact ⟨rfl, rfl, rfl, rfl⟩
    · exact ih e he'
  | case3 p led h =>
    rw [allocLot_done h]
    intro e he
    exact absurd he (List.not_mem_nil e)

theorem allocLot_syn_all (u strike price p : ℚ) (led : Ledger) :
    ∀ sc ∈ (allocLot u strike price p led).syn,
      sc.strike = strike ∧ sc.valuePerUnit = price + (u - strike) ∧
        sc.totalValue = sc.position * sc.valuePerUnit ∧ 0 < sc.position := by
  induction p, led using allocLot.induct u strike price with
  | case1 p led h hf ih =>
    rw [allocLot_of_fut h.1 hf]
    intro sc hsc
    rcases List.mem_cons.mp hsc with rfl | hsc'
    · exact ⟨rfl, rfl, rfl, lt_min h.1 hf⟩
    · exact ih sc hsc'
  | case2 p led h hf ih =>
    have hc : 0 < led.cash := h.2.resolve_left hf
    rw [allocLot_of_cash h.1 hf hc]
    intro sc hsc
    rcases List.mem_cons.mp hsc with rfl | hsc'
    · exact ⟨rfl, rfl, rfl, lt_min h.1 hc⟩
    · exact ih sc hsc'
  | case3 p led h =>
    rw [allocLot_done h]
    intro sc hsc
    exact absurd hsc (List.not_mem_nil sc)

theorem allocLot_map_eq (u strike price p : ℚ) (led : Ledger) :
    (allocLot u strike price p led).syn.map
        (fun sc => (sc.strike, sc.position, some sc.valuePerUnit)) =
      (allocLot u strike price p led).log.map
        (fun e => (e.putStrike, e.amount, e.syntheticValue)) := by
  induction p, led using allocLot.induct u strike price with
  | case1 p led h hf ih =>
    rw [allocLot_of_fut h.1 hf]
    simp only [List.map_cons]
    rw [ih]
  | case2 p led h hf ih =>
    have hc : 0 < led.cash := h.2.resolve_left hf
    rw [allocLot_of_cash h.1 hf hc]
    simp only [List.map_cons]
    rw [ih]
  | case3 p led h =>
    rw [allocLot_done h]
    rfl

theorem allocLot_leftover_eq (u strike price p : ℚ) (led : Ledger) :
    (allocLot u strike price p led).leftover =
      p - sumSyn (allocLot u strike price p led).syn := by
  induction p, led using allocLot.induct u strike price with
  | case1 p led h hf ih =>
    rw [allocLot_of_fut h.1 hf]
    simp only [sumSyn, List.map_cons, List.sum_cons] at ih ⊢
    linarith
  | case2 p led h hf ih =>
    have hc : 0 < led.cash := h.2.resolve_left hf
    rw [allocLot_of_cash h.1 hf hc]
    simp only [sumSyn, List.map_cons, List.sum_cons] at ih ⊢
    linarith
  | case3 p led h =>
    rw [allocLot_done h]
    simp [sumSyn]

theorem allocLot_leftover_nonneg (u strike price p : ℚ) (led : Ledger)
    (hp : 0 ≤ p) : 0 ≤ (allocLot u strike price p led).leftover := by
  induction p, led using allocLot.induct u strike price with
  | case1 p led h hf ih =>
    rw [allocLot_of_fut h.1 hf]
    exact ih (by have := min_le_left p led.fut; linarith)
  | case2 p led h hf ih =>
    have hc : 0 < led.cash := h.2.resolve_left hf
    rw [allocLot_of_cash h.1 hf hc]
    exact ih (by have := min_le_left p led.cash; linarith)
  | case3 p led h =>
    rw [allocLot_done h]
    exact hp

theorem allocLot_exit (u strike price p : ℚ) (led : Ledger) :
    ¬ (0 < (allocLot u strike price p led).leftover ∧
      (0 < (allocLot u strike price p led).led.fut ∨
        0 < (allocLot u strike price p led).led.cash)) := by
  induction p, led using allocLot.induct u strike price with
  | case1 p led h hf ih =>
    rw [allocLot_of_fut h.1 hf]
    exact ih
  | case2 p led h hf ih =>
    have hc : 0 < led.cash := h.2.resolve_left hf
    rw [allocLot_of_cash h.1 hf hc]
    exact ih
  | case3 p led h =>
    rw [allocLot_done h]
    exact h

theorem allocLot_cash_rest_nil (u strike price p : ℚ) (led : Ledger)
    (hf : ¬ 0 < led.fut) :
    (allocLot u strike price (p - min p led.cash)
      ⟨led.fut, led.cash - min p led.cash⟩).log = [] := by
  rcases min_choice p led.cash with hm | hm
  · rw [hm, allocLot_nonpos (le_of_eq (sub_self p))]
  · rw [hm, allocLot_done (by
      rintro ⟨hp, h1 | h1⟩
      · exact hf h1
      · simp at h1)]

theorem allocLot_fut_exhausted (u strike price p : ℚ) (led : Ledger)
    (hf : led.fut ≤ 0) :
    (allocLot u strike price p led).log.length ≤ 1 ∧
      ∀ e ∈ (allocLot u strike price p led).log, e.source = Source.Cash := by
  by_cases h : 0 < p ∧ (0 < led.fut ∨ 0 < led.cash)
  · have hna : ¬ 0 < led.fut := not_lt.mpr hf
    have hc : 0 < led.cash := h.2.resolve_left hna
    rw [allocLot_of_cash h.1 hna hc, allocLot_cash_rest_nil u strike price p led hna]
    constructor
    · simp
    · intro e he
      rcases List.mem_cons.mp he with rfl | he'
      · rfl
      · exact absurd he' (List.not_mem_nil e)
  · rw [allocLot_done h]
    simp

theorem countSource_nil (s : Source) : countSource [] s = 0 := rfl

theorem countSource_le_length (l : List LogEntry) (s : Source) :
    countSource l s ≤ l.length :=
  List.length_filter_le _ l

theorem countSource_all_cash {l : List LogEntry}
    (h : ∀ e ∈ l, e.source = Source.Cash) :
    countSource l Source.Futures = 0 := by
  unfold countSource
  rw [List.length_eq_zero, List.filter_eq_nil_iff]
  intro e he
  simp [isCreateEntry, h e he]

theorem allocLot_log_len (u strike price p : ℚ) (led : Ledger) :
    (allocLot u strike price p led).log.length ≤ 2 := by
  by_cases h : 0 < p ∧ (0 < led.fut ∨ 0 < led.cash)
  · by_cases hf : 0 < led.fut
    · rw [allocLot_of_fut h.1 hf]
      rcases min_choice p led.fut with hm | hm
      · rw [hm, allocLot_nonpos (le_of_eq (sub_self p))]
        simp
      · rw [hm]
        have h18 := (allocLot_fut_exhausted u strike price (p - led.fut)
          ⟨led.fut - led.fut, led.cash⟩ (le_of_eq (sub_self led.fut))).1
        simp only [LotResult.log, List.length_cons]
        omega
    · have h18 := (allocLot_fut_exhausted u strike price p led (not_lt.mp hf)).1
      omega
  · rw [allocLot_done h]
    simp

theorem countSource_cons (e : LogEntry) (l : List LogEntry) (s : Source) :
    countSource (e :: l) s =
      (if isCreateEntry e && e.source == s then 1 else 0) + countSource l s := by
  unfold countSource
  rw [List.filter_cons]
  split
  · simp [Nat.add_comm]
  · simp

theorem allocLot_countF_le (u strike price p : ℚ) (led : Ledger) :
    countSource (allocLot u strike price p led).log Source.Futures ≤ 1 := by
  by_cases h : 0 < p ∧ (0 < led.fut ∨ 0 < led.cash)
  · by_cases hf : 0 < led.fut
    · rw [allocLot_of_fut h.1 hf]
      have hz : countSource (allocLot u strike price (p - min p led.fut)
          ⟨led.fut - min p led.fut, led.cash⟩).log Source.Futures = 0 := by
        rcases min_choice p led.fut with hm | hm
        · rw [hm, allocLot_nonpos (le_of_eq (sub_self p))]
          rfl
        · rw [hm]
          exact countSource_all_cash (allocLot_fut_exhausted u strike price
            (p - led.fut) ⟨led.fut - led.fut, led.cash⟩ (le_of_eq (sub_self led.fut))).2
      rw [countSource_cons, hz]
      simp [isCreateEntry]
    · have hz := countSource_all_cash
        (allocLot_fut_exhausted u strike price p led (not_lt.mp hf)).2
      omega
  · rw [allocLot_done h]
    exact Nat.zero_le 1

theorem allocLot_countC_le (u strike price p : ℚ) (led : Ledger) :
    countSource (allocLot u strike price p led).log Source.Cash ≤ 1 := by
  by_cases h : 0 < p ∧ (0 < led.fut ∨ 0 < led.cash)
  · by_cases hf : 0 < led.fut
    · rw [allocLot_of_fut h.1 hf]
      have hz : countSource (allocLot u strike price (p - min p led.fut)
          ⟨led.fut - min p led.fut, led.cash⟩).log Source.Cash ≤ 1 := by
        rcases min_choice p led.fut with hm | hm
        · rw [hm, allocLot_nonpos (le_of_eq (sub_self p))]
          exact Nat.zero_le 1
        · rw [hm]
          exact le_trans (countSource_le_length _ _)
            (allocLot_fut_exhausted u strike price (p - led.fut)
              ⟨led.fut - led.fut, led.cash⟩ (le_of_eq (sub_self led.fut))).1
      rw [countSource_cons]
      simpa [isCreateEntry] using hz
    · have hna : ¬ 0 < led.fut := hf
      have hc : 0 < led.cash := h.2.resolve_left hna
      rw [allocLot_of_cash h.1 hna hc,
        allocLot_cash_rest_nil u strike price p led hna, countSource_cons]
      simp [isCreateEntry, countSource_nil]
  · rw [allocLot_done h]
    exact Nat.zero_le 1

/-! ## Invariants of the loop over all put lots -/

theorem sumSyn_append (l1 l2 : List SynLot) :
    sumSyn (l1 ++ l2) = sumSyn l1 + sumSyn l2 := by
  simp [sumSyn]

theorem futDrawn_cons (e : LogEntry) (l : List LogEntry) :
    futDrawn (e :: l) =
      (if e.action = Action.CreateSyntheticCall ∧ e.source = Source.Futures then
        e.amount
      else 0) + futDrawn l := by
  simp [futDrawn]

theorem futDrawn_append (l1 l2 : List LogEntry) :
    futDrawn (l1 ++ l2) = futDrawn l1 + futDrawn l2 := by
  simp [futDrawn]

theorem cashPriorityOk_append (f : ℚ) (l1 l2 : List LogEntry) :
    cashPriorityOk f (l1 ++ l2) =
      (cashPriorityOk f l1 && cashPriorityOk (f - futDrawn l1) l2) := by
  induction l1 generalizing f with
  | nil => simp [cashPriorityOk, futDrawn]
  | cons e t ih =>
    rw [List.cons_append]
    simp only [cashPriorityOk]
    rw [ih, futDrawn_cons, ← sub_sub, Bool.and_assoc]

theorem allocLots_conservation (u : ℚ) (lots : List Position) (led : Ledger) :
    sumSyn (allocLots u lots led).syn + (allocLots u lots led).led.fut +
        (allocLots u lots led).led.cash = led.fut + led.cash ∧
      (allocLots u lots led).led.fut ≤ led.fut ∧
      (allocLots u lots led).led.cash ≤ led.cash := by
  induction lots generalizing led with
  | nil => simp [allocLots, sumSyn]
  | cons lot rest ih =>
    match hs : lot.strike with
    | none =>
      simp only [allocLots, hs]
      exact ih led
    | some k =>
      simp only [allocLots, hs]
      obtain ⟨ih1, ih2, ih3⟩ := ih (allocLot u k lot.marketPrice lot.position led).led
      have l1 := allocLot_conservation u k lot.marketPrice lot.position led
      have l2 := allocLot_fut_le u k lot.marketPrice lot.position led
      have l3 := allocLot_cash_le u k lot.marketPrice lot.position led
      rw [sumSyn_append]
      refine ⟨by linarith, by linarith, by linarith⟩

theorem allocLots_fut_eq (u : ℚ) (lots : List Position) (led : Ledger) :
    (allocLots u lots led).led.fut =
      led.fut - futDrawn (allocLots u lots led).log := by
  induction lots generalizing led with
  | nil => simp [allocLots, futDrawn]
  | cons lot rest ih =>
    match hs : lot.strike with
    | none =>
      simp only [allocLots, hs]
      exact ih led
    | some k =>
      simp only [allocLots, hs]
      rw [futDrawn_append, futDrawn_append]
      have h1 := allocLot_fut_eq u k lot.marketPrice lot.position led
      have h2 := ih (allocLot u k lot.marketPrice lot.position led).led
      have hextra : futDrawn
          (if 0 < (allocLot u k lot.marketPrice lot.position led).leftover then
            [⟨Action.UnmatchedPuts, Source.Puts,
              (allocLot u k lot.marketPrice lot.position led).leftover, k,
              lot.marketPrice, none⟩]
          else []) = 0 := by
        split
        · simp [futDrawn]
        · simp [futDrawn]
      rw [hextra]
      linarith

theorem allocLots_cashPriority (u : ℚ) (lots : List Position) (led : Ledger) :
    cashPriorityOk led.fut (allocLots u lots led).log = true := by
  induction lots generalizing led with
  | nil => rfl
  | cons lot rest ih =>
    match hs : lot.strike with
    | none =>
      simp only [allocLots, hs]
      exact ih led
    | some k =>
      simp only [allocLots, hs]
      rw [cashPriorityOk_append, cashPriorityOk_append]
      simp only [Bool.and_eq_true]
      refine ⟨⟨allocLot_cashPriority u k lot.marketPrice lot.position led, ?_⟩, ?_⟩
      · split
        · simp [cashPriorityOk]
        · rfl
      · have hextra : futDrawn
            (if 0 < (allocLot u k lot.marketPrice lot.position led).leftover then
              [⟨Action.UnmatchedPuts, Source.Puts,
                (allocLot u k lot.marketPrice lot.position led).leftover, k,
                lot.marketPrice, none⟩]
            else []) = 0 := by
          split
          · simp [futDrawn]
          · simp [futDrawn]
        rw [futDrawn_append, hextra, add_zero,
          ← allocLot_fut_eq u k lot.marketPrice lot.position led]
        exact ih (allocLot u k lot.marketPrice lot.position led).led

theorem allocLots_log_strikes (u : ℚ) (lots : List Position) (led : Ledger) :
    ∀ e ∈ (allocLots u lots led).log,
      ∃ lot ∈ lots, lot.strike = some e.putStrike := by
  induction lots generalizing led with
  | nil =>
    intro e he
    exact absurd he (List.not_mem_nil e)
  | cons lot rest ih =>
    match hs : lot.strike with
    | none =>
      simp only [allocLots, hs]
      intro e he
      obtain ⟨lot', h1, h2⟩ := ih led e he
      exact ⟨lot', List.mem_cons_of_mem _ h1, h2⟩
    | some k =>
      simp only [allocLots, hs]
      intro e he
      rcases List.mem_append.mp he with h12 | h3
      · rcases List.mem_append.mp h12 with h1 | h2
        · have := (allocLot_log_all u k lot.marketPrice lot.position led e h1).2.1
          exact ⟨lot, List.mem_cons_self _ _, by rw [hs, this]⟩
        · revert h2
          split
          · intro h2
            rcases List.mem_cons.mp h2 with rfl | h2'
            · exact ⟨lot, List.mem_cons_self _ _, by rw [hs]⟩
            · exact absurd h2' (List.not_mem_nil e)
          · intro h2
            exact absurd h2 (List.not_mem_nil e)
      · obtain ⟨lot', hl1, hl2⟩ :=
          ih (allocLot u k lot.marketPrice lot.position led).led e h3
        exact ⟨lot', List.mem_cons_of_mem _ hl1, hl2⟩

theorem allocLots_syn_strikes (u : ℚ) (lots : List Position) (led : Ledger) :
    ∀ sc ∈ (allocLots u lots led).syn,
      ∃ lot ∈ lots, lot.strike = some sc.strike := by
  induction lots generalizing led with
  | nil =>
    intro sc hsc
    exact absurd hsc (List.not_mem_nil sc)
  | cons lot rest ih =>
    match hs : lot.strike with
    | none =>
      simp only [allocLots, hs]
      intro sc hsc
      obtain ⟨lot', h1, h2⟩ := ih led sc hsc
      exact ⟨lot', List.mem_cons_of_mem _ h1, h2⟩
    | some k =>
      simp only [allocLots, hs]
      intro sc hsc
      rcases List.mem_append.mp hsc with h1 | h2
      · have := (allocLot_syn_all u k lot.marketPrice lot.position led sc h1).1
        exact ⟨lot, List.mem_cons_self _ _, by rw [hs, this]⟩
      · obtain ⟨lot', hl1, hl2⟩ :=
          ih (allocLot u k lot.marketPrice lot.position led).led sc h2
        exact ⟨lot', List.mem_cons_of_mem _ hl1, hl2⟩

theorem allocLots_syn_vals (u : ℚ) (lots : List Position) (led : Ledger) :
    ∀ sc ∈ (allocLots u lots led).syn,
      sc.totalValue = sc.position * sc.valuePerUnit ∧ 0 < sc.position := by
  induction lots generalizing led with
  | nil =>
    intro sc hsc
    exact absurd hsc (List.not_mem_nil sc)
  | cons lot rest ih =>
    match hs : lot.strike with
    | none =>
      simp only [allocLots, hs]
      exact ih led
    | some k =>
      simp only [allocLots, hs]
      intro sc hsc
      rcases List.mem_append.mp hsc with h1 | h2
      · have := allocLot_syn_all u k lot.marketPrice lot.position led sc h1
        exact ⟨this.2.2.1, this.2.2.2⟩
      · exact ih (allocLot u k lot.marketPrice lot.position led).led sc h2

theorem allocLots_log_create_vals (u : ℚ) (lots : List Position) (led : Ledger) :
    ∀ e ∈ (allocLots u lots led).log, e.action = Action.CreateSyntheticCall →
      e.syntheticValue = some (e.putPrice + (u - e.putStrike)) := by
  induction lots generalizing led with
  | nil =>
    intro e he
    exact absurd he (List.not_mem_nil e)
  | cons lot rest ih =>
    match hs : lot.strike with
    | none =>
      simp only [allocLots, hs]
      exact ih led
    | some k =>
      simp only [allocLots, hs]
      intro e he hact
      rcases List.mem_append.mp he with h12 | h3
      · rcases List.mem_append.mp h12 with h1 | h2
        · obtain ⟨-, hk, hp, hv⟩ :=
            allocLot_log_all u k lot.marketPrice lot.position led e h1
          rw [hv, hk, hp]
        · revert h2
          split
          · intro h2
            rcases List.mem_cons.mp h2 with rfl | h2'
            · exact absurd hact (by simp)
            · exact absurd h2' (List.not_mem_nil e)
          · intro h2
            exact absurd h2 (List.not_mem_nil e)
      · exact ih (allocLot u k lot.marketPrice lot.position led).led e h3 hact

theorem allocLots_map_eq (u : ℚ) (lots : List Position) (led : Ledger) :
    (allocLots u lots led).syn.map
        (fun sc => (sc.strike, sc.position, some sc.valuePerUnit)) =
      ((allocLots u lots led).log.filter isCreateEntry).map
        (fun e => (e.putStrike, e.amount, e.syntheticValue)) := by
  induction lots generalizing led with
  | nil => rfl
  | cons lot rest ih =>
    match hs : lot.strike with
    | none =>
      simp only [allocLots, hs]
      exact ih led
    | some k =>
      simp only [allocLots, hs]
      rw [List.filter_append, List.filter_append]
      have hf1 : List.filter isCreateEntry
          (allocLot u k lot.marketPrice lot.position led).log =
          (allocLot u k lot.marketPrice lot.position led).log :=
        List.filter_eq_self.mpr (fun e he => by
          simp [isCreateEntry,
            (allocLot_log_all u k lot.marketPrice lot.position led e he).1])
      have hf2 : List.filter isCreateEntry
          (if 0 < (allocLot u k lot.marketPrice lot.position led).leftover then
            [⟨Action.UnmatchedPuts, Source.Puts,
              (allocLot u k lot.marketPrice lot.position led).leftover, k,
              lot.marketPrice, none⟩]
          else []) = [] := by
        split
        · simp [isCreateEntry]
        · rfl
      rw [hf1, hf2, List.append_nil, List.map_append, List.map_append,
        allocLot_map_eq, ih]

theorem allocLots_syn_le (u : ℚ) (lots : List Position) (led : Ledger)
    (h : ∀ lot ∈ lots, 0 ≤ lot.position) :
    sumSyn (allocLots u lots led).syn ≤ sumPositions lots := by
  induction lots generalizing led with
  | nil => simp [allocLots, sumSyn, sumPositions]
  | cons lot rest ih =>
    have hlot : 0 ≤ lot.position := h lot (List.mem_cons_self _ _)
    have hrest : ∀ l ∈ rest, 0 ≤ l.position :=
      fun l hl => h l (List.mem_cons_of_mem _ hl)
    match hs : lot.strike with
    | none =>
      simp only [allocLots, hs]
      have := ih led hrest
      simp only [sumPositions, List.map_cons, List.sum_cons] at *
      linarith
    | some k =>
      simp only [allocLots, hs]
      rw [sumSyn_append]
      have h1 := allocLot_leftover_eq u k lot.marketPrice lot.position led
      have h2 := allocLot_leftover_nonneg u k lot.marketPrice lot.position led hlot
      have h3 := ih (allocLot u k lot.marketPrice lot.position led).led hrest
      simp only [sumPositions, List.map_cons, List.sum_cons] at *
      linarith

theorem allocLots_syn_nonneg (u : ℚ) (lots : List Position) (led : Ledger) :
    0 ≤ sumSyn (allocLots u lots led).syn := by
  unfold sumSyn
  apply List.sum_nonneg
  intro x hx
  rcases List.mem_map.mp hx with ⟨sc, hsc, rfl⟩
  exact le_of_lt (allocLots_syn_vals u lots led sc hsc).2

theorem pairwise_ge_of_const_append {k : ℚ} {A B : List ℚ}
    (hA : ∀ x ∈ A, x = k) (hB : B.Pairwise (fun a b => b ≤ a))
    (hBk : ∀ x ∈ B, x ≤ k) :
    (A ++ B).Pairwise (fun a b => b ≤ a) := by
  rw [List.pairwise_append]
  refine ⟨?_, hB, ?_⟩
  · exact List.pairwise_of_forall_mem_list
      (fun a ha b hb => by rw [hA a ha, hA b hb])
  · intro a ha b hb
    rw [hA a ha]
    exact hBk b hb

theorem strikeDescRel_le {lot lot' : Position} {x y : ℚ}
    (h : strikeDescRel lot lot') (hx : lot.strike = some x)
    (hy : lot'.strike = some y) : y ≤ x := by
  unfold strikeDescRel strikeDescLeB at h
  rw [hx, hy] at h
  exact of_decide_eq_true h

theorem allocLots_strikes_desc (u : ℚ) (lots : List Position) (led : Ledger)
    (hsort : lots.Pairwise strikeDescRel) :
    ((allocLots u lots led).log.map LogEntry.putStrike).Pairwise
      (fun a b => b ≤ a) := by
  induction lots generalizing led with
  | nil => simp [allocLots]
  | cons lot rest ih =>
    match hs : lot.strike with
    | none =>
      simp only [allocLots, hs]
      exact ih led hsort.of_cons
    | some k =>
      simp only [allocLots, hs]
      rw [List.map_append]
      apply pairwise_ge_of_const_append
      · intro x hx
        rcases List.mem_map.mp hx with ⟨e, he, rfl⟩
        rcases List.mem_append.mp he with h1 | h2
        · exact (allocLot_log_all u k lot.marketPrice lot.position led e h1).2.1
        · revert h2
          split
          · intro h2
            rcases List.mem_cons.mp h2 with rfl | h2'
            · rfl
            · exact absurd h2' (List.not_mem_nil e)
          · intro h2
            exact absurd h2 (List.not_mem_nil e)
      · exact ih (allocLot u k lot.marketPrice lot.position led).led hsort.of_cons
      · intro x hx
        rcases List.mem_map.mp hx with ⟨e, he, rfl⟩
        obtain ⟨lot', hl1, hl2⟩ :=
          allocLots_log_strikes u rest
            (allocLot u k lot.marketPrice lot.position led).led e he
        exact strikeDescRel_le ((List.pairwise_cons.mp hsort).1 lot' hl1) hs hl2

/-! ## The unmatched-put re-attribution pass -/

theorem greedyUnmatched_nonpos (lots : List Position) {rem : ℚ} (h : rem ≤ 0) :
    greedyUnmatched lots rem = [] := by
  cases lots with
  | nil => rfl
  | cons lot rest =>
    simp only [greedyUnmatched]
    rw [if_pos h]

theorem greedyUnmatched_rows (lots : List Position) (rem : ℚ) :
    ∀ row ∈ greedyUnmatched lots rem,
      row.type = RowType.UnmatchedPut ∧
        row.totalValue = row.position * row.valuePerUnit := by
  induction lots generalizing rem with
  | nil =>
    intro row hrow
    exact absurd hrow (List.not_mem_nil row)
  | cons lot rest ih =>
    intro row hrow
    simp only [greedyUnmatched] at hrow
    by_cases h0 : rem ≤ 0
    · rw [if_pos h0] at hrow
      exact absurd hrow (List.not_mem_nil row)
    · rw [if_neg h0] at hrow
      by_cases hpos : 0 < min lot.position rem
      · rw [if_pos hpos] at hrow
        rcases List.mem_cons.mp hrow with rfl | hrow'
        · exact ⟨rfl, rfl⟩
        · exact ih _ row hrow'
      · rw [if_neg hpos] at hrow
        exact ih _ row hrow

theorem greedyUnmatched_sum (lots : List Position) (rem : ℚ)
    (hl : ∀ lot ∈ lots, 0 ≤ lot.position) (h0 : 0 < rem)
    (hle : rem ≤ sumPositions lots) :
    ((greedyUnmatched lots rem).map FinalRow.position).sum = rem := by
  induction lots generalizing rem with
  | nil =>
    exfalso
    simp [sumPositions] at hle
    linarith
  | cons lot rest ih =>
    have hlot : 0 ≤ lot.position := hl lot (List.mem_cons_self _ _)
    have hrest : ∀ l ∈ rest, 0 ≤ l.position :=
      fun l h => hl l (List.mem_cons_of_mem _ h)
    simp only [greedyUnmatched]
    rw [if_neg (not_le.mpr h0)]
    by_cases hpos : 0 < min lot.position rem
    · rw [if_pos hpos]
      simp only [List.map_cons, List.sum_cons]
      by_cases hz : rem - min lot.position rem ≤ 0
      · rw [greedyUnmatched_nonpos rest hz]
        have hmr : min lot.position rem = rem := by
          have h1 := min_le_right lot.position rem
          linarith
        rw [hmr]
        simp
      · push_neg at hz
        have hmm : min lot.position rem = lot.position := by
          rcases min_choice lot.position rem with hm | hm
          · exact hm
          · rw [hm] at hz
            linarith
        have hrem' : rem - min lot.position rem ≤ sumPositions rest := by
          rw [hmm]
          simp only [sumPositions, List.map_cons, List.sum_cons] at hle
          unfold sumPositions
          linarith
        rw [ih _ hrest hz hrem']
        ring
    · rw [if_neg hpos]
      have hlp : lot.position ≤ 0 := by
        rcases min_choice lot.position rem with hm | hm
        · rw [hm] at hpos
          exact not_lt.mp hpos
        · rw [hm] at hpos
          exact absurd h0 hpos
      have hrle : rem ≤ sumPositions rest := by
        simp only [sumPositions, List.map_cons, List.sum_cons] at hle
        unfold sumPositions
        linarith
      exact ih _ hrest h0 hrle

/-! ## From a run back to its pieces -/

theorem assemble_log (df : List Position) (u : ℚ) :
    (assemble df u).transformation_log = (allocOf df u).log := rfl

theorem assemble_syn (df : List Position) (u : ℚ) :
    (assemble df u).synthetic_calls = (allocOf df u).syn := rfl

theorem assemble_remFut (df : List Position) (u : ℚ) :
    (assemble df u).remaining_futures = (allocOf df u).led.fut := rfl

theorem assemble_remCash (df : List Position) (u : ℚ) :
    (assemble df u).remaining_cash = (allocOf df u).led.cash := rfl

theorem assemble_underlying (df : List Position) (u : ℚ) :
    (assemble df u).underlying_price = u := rfl

theorem assemble_portfolio (df : List Position) (u : ℚ) :
    (assemble df u).final_portfolio =
      (if 0 < (allocOf df u).led.fut then
        [⟨RowType.FuturesRow, none, (allocOf df u).led.fut, u,
          (allocOf df u).led.fut * u, RiskType.LongStock⟩]
      else []) ++
      (if 0 < (allocOf df u).led.cash then
        [⟨RowType.CashRow, none, (allocOf df u).led.cash, u,
          (allocOf df u).led.cash * u, RiskType.LongStock⟩]
      else []) ++
      (allocOf df u).syn.map (fun sc =>
        ⟨RowType.SyntheticCall, some sc.strike, sc.position, sc.valuePerUnit,
          sc.totalValue, RiskType.CallLike⟩) ++
      (df.filter isCallRow).map (fun c =>
        ⟨RowType.OriginalCall, c.strike, c.position, c.marketPrice,
          c.position * c.marketPrice, RiskType.CallLike⟩) ++
      (if 0 < unmatchedOf df u then
        greedyUnmatched (sortPuts (df.filter isPutRow)) (unmatchedOf df u)
      else []) := rfl

theorem processNormalized_eq_some {df : List Position} {r : RunResult}
    (h : processNormalized df = some r) :
    ∃ u, underlying_price (df.filter isFuturesRow) (df.filter isCashRow) =
        some u ∧ r = assemble df u := by
  unfold processNormalized at h
  cases hu : underlying_price (df.filter isFuturesRow) (df.filter isCashRow) with
  | none =>
    rw [hu] at h
    exact absurd h (by simp)
  | some u =>
    rw [hu] at h
    exact ⟨u, rfl, (Option.some.inj h).symm⟩

theorem assemble_rows_total (df : List Position) (u : ℚ) :
    ∀ row ∈ (assemble df u).final_portfolio,
      row.totalValue = row.position * row.valuePerUnit := by
  rw [assemble_portfolio]
  intro row hrow
  rcases List.mem_append.mp hrow with h4 | h5
  · rcases List.mem_append.mp h4 with h3 | hD
    · rcases List.mem_append.mp h3 with h2 | hC
      · rcases List.mem_append.mp h2 with hA | hB
        · revert hA
          split <;> intro hA
          · rcases List.mem_cons.mp hA with rfl | hA'
            · rfl
            · exact absurd hA' (List.not_mem_nil row)
          · exact absurd hA (List.not_mem_nil row)
        · revert hB
          split <;> intro hB
          · rcases List.mem_cons.mp hB with rfl | hB'
            · rfl
            · exact absurd hB' (List.not_mem_nil row)
          · exact absurd hB (List.not_mem_nil row)
      · rcases List.mem_map.mp hC with ⟨sc, hsc, rfl⟩
        exact (allocLots_syn_vals u (sortPuts (df.filter isPutRow))
          ⟨total_futures df, total_cash df⟩ sc hsc).1
    · rcases List.mem_map.mp hD with ⟨c, hc, rfl⟩
      rfl
  · revert h5
    split <;> intro h5
    · exact (greedyUnmatched_rows _ _ row h5).2
    · exact absurd h5 (List.not_mem_nil row)

theorem assemble_unmatched_filter (df : List Position) (u : ℚ) :
    (assemble df u).final_portfolio.filter
        (fun row => row.type == RowType.UnmatchedPut) =
      (if 0 < unmatchedOf df u then
        greedyUnmatched (sortPuts (df.filter isPutRow)) (unmatchedOf df u)
      else []) := by
  rw [assemble_portfolio, List.filter_append, List.filter_append,
    List.filter_append, List.filter_append]
  have hA : List.filter (fun row => row.type == RowType.UnmatchedPut)
      (if 0 < (allocOf df u).led.fut then
        [(⟨RowType.FuturesRow, none, (allocOf df u).led.fut, u,
          (allocOf df u).led.fut * u, RiskType.LongStock⟩ : FinalRow)]
      else []) = [] := by
    split <;> simp
  have hB : List.filter (fun row => row.type == RowType.UnmatchedPut)
      (if 0 < (allocOf df u).led.cash then
        [(⟨RowType.CashRow, none, (allocOf df u).led.cash, u,
          (allocOf df u).led.cash * u, RiskType.LongStock⟩ : FinalRow)]
      else []) = [] := by
    split <;> simp
  have hC : List.filter (fun row => row.type == RowType.UnmatchedPut)
      ((allocOf df u).syn.map (fun sc =>
        (⟨RowType.SyntheticCall, some sc.strike, sc.position, sc.valuePerUnit,
          sc.totalValue, RiskType.CallLike⟩ : FinalRow))) = [] := by
    rw [List.filter_eq_nil_iff]
    intro row hrow
    rcases List.mem_map.mp hrow with ⟨sc, hsc, rfl⟩
    simp
  have hD : List.filter (fun row => row.type == RowType.UnmatchedPut)
      ((df.filter isCallRow).map (fun c =>
        (⟨RowType.OriginalCall, c.strike, c.position, c.marketPrice,
          c.position * c.marketPrice, RiskType.CallLike⟩ : FinalRow))) = [] := by
    rw [List.filter_eq_nil_iff]
    intro row hrow
    rcases List.mem_map.mp hrow with ⟨c, hc, rfl⟩
    simp
  have hE : List.filter (fun row => row.type == RowType.UnmatchedPut)
      (if 0 < unmatchedOf df u then
        greedyUnmatched (sortPuts (df.filter isPutRow)) (unmatchedOf df u)
      else []) =
      (if 0 < unmatchedOf df u then
        greedyUnmatched (sortPuts (df.filter isPutRow)) (unmatchedOf df u)
      else []) := by
    split
    · rw [List.filter_eq_self]
      intro row hrow
      simp [(greedyUnmatched_rows _ _ row hrow).1]
    · rfl
  rw [hA, hB, hC, hD, hE]
  simp

/-! ## The sample run, evaluated -/

theorem normalizeFrame_sample :
    normalizeFrame load_sample_data = sampleNormalized := by decide

theorem sample_futures_filter :
    sampleNormalized.filter isFuturesRow =
      [⟨"futures".toList, 100000, none, 1191⟩] := by decide

theorem sample_cash_filter :
    sampleNormalized.filter isCashRow =
      [⟨"cash".toList, 200000, none, 1190⟩] := by decide

theorem sample_puts_filter :
    sampleNormalized.filter isPutRow = samplePuts := by decide

theorem sample_calls_filter :
    sampleNormalized.filter isCallRow = sampleCalls := by decide

theorem sample_sorted : sortPuts samplePuts = samplePuts := by decide

theorem sample_totals :
    total_futures sampleNormalized = 100000 ∧
      total_cash sampleNormalized = 200000 ∧
      total_puts sampleNormalized = 315000 := by
  refine ⟨?_, ?_, ?_⟩ <;>
    norm_num [total_futures, total_cash, total_puts, sample_futures_filter,
      sample_cash_filter, sample_puts_filter, samplePuts, sumPositions]

theorem sample_alloc :
    allocLots 1191 samplePuts ⟨100000, 200000⟩ =
      ⟨sampleLog, sampleSyn, ⟨0, 0⟩⟩ := by
  norm_num [samplePuts, sampleLog, sampleSyn, allocLots, allocLot_of_fut,
    allocLot_of_cash, allocLot_done, min_def]

theorem allocOf_sample :
    allocOf sampleNormalized 1191 = ⟨sampleLog, sampleSyn, ⟨0, 0⟩⟩ := by
  unfold allocOf
  rw [sample_puts_filter, sample_sorted, sample_totals.1, sample_totals.2.1]
  exact sample_alloc

theorem assemble_sample : assemble sampleNormalized 1191 = sampleResult := by
  norm_num [assemble, allocOf_sample, matchedOf, unmatchedOf, sample_totals.1,
    sample_totals.2.1, sample_totals.2.2, sample_puts_filter, sample_calls_filter,
    sample_sorted, greedyUnmatched, min_def, sampleResult, sampleLog, sampleSyn,
    samplePuts, sampleCalls]

theorem processNormalized_sample :
    processNormalized sampleNormalized = some sampleResult := by
  unfold processNormalized
  rw [sample_futures_filter, sample_cash_filter]
  show some (assemble sampleNormalized 1191) = some sampleResult
  rw [assemble_sample]

theorem process_portfolio_sample :
    process_portfolio load_sample_data = (some sampleResult, sampleNormalized) := by
  unfold process_portfolio
  rw [normalizeFrame_sample, processNormalized_sample]

/-! ## The misattribution run, evaluated -/

theorem misattribution_filters :
    misattributionFrame.filter isFuturesRow =
        [⟨"futures".toList, 50, none, 1250⟩] ∧
      misattributionFrame.filter isCashRow = [] ∧
      misattributionFrame.filter isPutRow =
        [⟨"puts".toList, 100, some 1200, 10⟩,
         ⟨"puts".toList, 100, some 1100, 5⟩] ∧
      misattributionFrame.filter isCallRow = [] := by decide

theorem misattribution_sorted :
    sortPuts [⟨"puts".toList, 100, some 1200, 10⟩,
        ⟨"puts".toList, 100, some 1100, 5⟩] =
      [⟨"puts".toList, 100, some 1200, 10⟩,
       ⟨"puts".toList, 100, some 1100, 5⟩] := by decide

theorem misattribution_totals :
    total_futures misattributionFrame = 50 ∧
      total_cash misattributionFrame = 0 ∧
      total_puts misattributionFrame = 200 := by
  refine ⟨?_, ?_, ?_⟩ <;>
    norm_num [total_futures, total_cash, total_puts, misattribution_filters.1,
      misattribution_filters.2.1, misattribution_filters.2.2.1, sumPositions]

theorem misattribution_alloc :
    allocLots 1250 [⟨"puts".toList, 100, some 1200, 10⟩,
        ⟨"puts".toList, 100, some 1100, 5⟩] ⟨50, 0⟩ =
      ⟨[⟨Action.CreateSyntheticCall, Source.Futures, 50, 1200, 10, some 60⟩,
        ⟨Action.UnmatchedPuts, Source.Puts, 50, 1200, 10, none⟩,
        ⟨Action.UnmatchedPuts, Source.Puts, 100, 1100, 5, none⟩],
       [⟨1200, 50, 60, 3000, Source.Futures⟩], ⟨0, 0⟩⟩ := by
  norm_num [allocLots, allocLot_of_fut, allocLot_of_cash, allocLot_done, min_def]

theorem allocOf_misattribution :
    allocOf misattributionFrame 1250 =
      ⟨[⟨Action.CreateSyntheticCall, Source.Futures, 50, 1200, 10, some 60⟩,
        ⟨Action.UnmatchedPuts, Source.Puts, 50, 1200, 10, none⟩,
        ⟨Action.UnmatchedPuts, Source.Puts, 100, 1100, 5, none⟩],
       [⟨1200, 50, 60, 3000, Source.Futures⟩], ⟨0, 0⟩⟩ := by
  unfold allocOf
  rw [misattribution_filters.2.2.1, misattribution_sorted,
    misattribution_totals.1, misattribution_totals.2.1]
  exact misattribution_alloc

theorem assemble_misattribution :
    assemble misattributionFrame 1250 = misattributionResult := by
  norm_num [assemble, allocOf_misattribution, matchedOf, unmatchedOf,
    misattribution_totals.1, misattribution_totals.2.1,
    misattribution_totals.2.2, misattribution_filters.2.2.1,
    misattribution_filters.2.2.2, misattribution_sorted, greedyUnmatched,
    min_def, misattributionResult]

theorem processNormalized_misattribution :
    processNormalized misattributionFrame = some misattributionResult := by
  unfold processNormalized
  rw [misattribution_filters.1, misattribution_filters.2.1]
  show some (assemble misattributionFrame 1250) = some misattributionResult
  rw [assemble_misattribution]

/-! ## The NaN-strike run, evaluated -/

theorem nanPut_filters :
    nanPutFrame.filter isFuturesRow = [⟨"futures".toList, 50, none, 100⟩] ∧
      nanPutFrame.filter isCashRow = [] ∧
      nanPutFrame.filter isPutRow = [⟨"puts".toList, 100, none, 5⟩] ∧
      nanPutFrame.filter isCallRow = [] := by decide

theorem nanPut_sorted :
    sortPuts [⟨"puts".toList, 100, none, 5⟩] =
      [⟨"puts".toList, 100, none, 5⟩] := by decide

theorem nanPut_totals :
    total_futures nanPutFrame = 50 ∧ total_cash nanPutFrame = 0 ∧
      total_puts nanPutFrame = 100 := by
  refine ⟨?_, ?_, ?_⟩ <;>
    norm_num [total_futures, total_cash, total_puts, nanPut_filters.1,
      nanPut_filters.2.1, nanPut_filters.2.2.1, sumPositions]

theorem allocOf_nanPut :
    allocOf nanPutFrame 100 = ⟨[], [], ⟨50, 0⟩⟩ := by
  unfold allocOf
  rw [nanPut_filters.2.2.1, nanPut_sorted, nanPut_totals.1, nanPut_totals.2.1]
  simp [allocLots]

theorem assemble_nanPut : assemble nanPutFrame 100 = nanPutResult := by
  norm_num [assemble, allocOf_nanPut, matchedOf, unmatchedOf, nanPut_totals.1,
    nanPut_totals.2.1, nanPut_totals.2.2, nanPut_filters.2.2.1,
    nanPut_filters.2.2.2, nanPut_sorted, greedyUnmatched, min_def, nanPutResult]

theorem processNormalized_nanPut :
    processNormalized nanPutFrame = some nanPutResult := by
  unfold processNormalized
  rw [nanPut_filters.1, nanPut_filters.2.1]
  show some (assemble nanPutFrame 100) = some nanPutResult
  rw [assemble_nanPut]

theorem underlying_price_cons (f : Position) (fs cash : List Position) :
    underlying_price (f :: fs) cash = some f.marketPrice := rfl

theorem underlying_price_nil_cons (c : Position) (cs : List Position) :
    underlying_price [] (c :: cs) = some c.marketPrice := rfl

/-- Aggregate put conservation: with nonnegative put quantities, the
total synthetic-call quantity plus the total quantity of all
UnmatchedPut rows of the final portfolio equals the total put quantity.
The totals balance even though the per-lot attribution is wrong. -/
theorem aggregate_put_conservation (df : List Position) (r : RunResult)
    (h : processNormalized df = some r)
    (hpos : ∀ p ∈ df.filter isPutRow, 0 ≤ p.position) :
    sumSyn r.synthetic_calls + unmatchedQtyTotal r = total_puts df := by
  obtain ⟨u, -, rfl⟩ := processNormalized_eq_some h
  rw [assemble_syn]
  unfold unmatchedQtyTotal
  rw [assemble_unmatched_filter]
  have hperm : sumPositions (sortPuts (df.filter isPutRow)) = total_puts df := by
    unfold sortPuts total_puts sumPositions
    exact ((List.perm_insertionSort strikeDescRel
      (df.filter isPutRow)).map Position.position).sum_eq
  have hposS : ∀ lot ∈ sortPuts (df.filter isPutRow), 0 ≤ lot.position :=
    fun lot hl => hpos lot ((List.mem_insertionSort strikeDescRel).mp hl)
  have hle := allocLots_syn_le u (sortPuts (df.filter isPutRow))
    ⟨total_futures df, total_cash df⟩ hposS
  have hcons := (allocLots_conservation u (sortPuts (df.filter isPutRow))
    ⟨total_futures df, total_cash df⟩).1
  have hnn := allocLots_syn_nonneg u (sortPuts (df.filter isPutRow))
    ⟨total_futures df, total_cash df⟩
  have hunm : unmatchedOf df u = total_puts df -
      sumSyn (allocOf df u).syn := by
    unfold unmatchedOf matchedOf allocOf
    unfold total_puts total_futures total_cash at *
    simp only [Ledger.fut, Ledger.cash] at hcons ⊢
    linarith
  by_cases hpos0 : 0 < unmatchedOf df u
  · rw [if_pos hpos0]
    have hbound : unmatchedOf df u ≤
        sumPositions (sortPuts (df.filter isPutRow)) := by
      rw [hunm, hperm]
      unfold allocOf at *
      linarith
    rw [greedyUnmatched_sum (sortPuts (df.filter isPutRow))
      (unmatchedOf df u) hposS hpos0 hbound, hunm]
    ring
  · rw [if_neg hpos0]
    have h2 : unmatchedOf df u ≤ 0 := not_lt.mp hpos0
    rw [hunm] at h2
    have h1 : sumSyn (allocOf df u).syn ≤ total_puts df := by
      rw [← hperm]
      unfold allocOf
      exact hle
    simp only [List.map_nil, List.sum_nil, add_zero]
    linarith

/-- Aggregate put conservation on the sample run: 300000 matched plus
15000 unmatched equals the 315000 total put quantity. -/
theorem aggregate_put_conservation_sample :
    sumSyn sampleResult.synthetic_calls + unmatchedQtyTotal sampleResult =
      total_puts sampleNormalized :=
  aggregate_put_conservation sampleNormalized sampleResult
    processNormalized_sample (by decide)

/-! ## The claims -/

/-- C1: stock-side conservation.  For every run that returns a result,
the sum of all synthetic-call lot quantities plus `remaining_futures`
plus `remaining_cash` equals `total_futures + total_cash` (the summed
classified Futures and Cash input quantities), and each remaining
balance never exceeds its original total. -/
theorem C1_stock_conservation (df : List Position) (r : RunResult)
    (h : processNormalized df = some r) :
    sumSyn r.synthetic_calls + r.remaining_futures + r.remaining_cash =
        total_futures df + total_cash df ∧
      r.remaining_futures ≤ total_futures df ∧
      r.remaining_cash ≤ total_cash df := by
  obtain ⟨u, -, rfl⟩ := processNormalized_eq_some h
  rw [assemble_syn, assemble_remFut, assemble_remCash]
  exact allocLots_conservation u (sortPuts (df.filter isPutRow))
    ⟨total_futures df, total_cash df⟩

/-- C1 witness: the conservation identity evaluated on the sample run,
where the synthetic lots sum to 300000 and both balances end at 0. -/
theorem C1_stock_conservation_witness :
    sumSyn sampleResult.synthetic_calls + sampleResult.remaining_futures +
        sampleResult.remaining_cash =
        total_futures sampleNormalized + total_cash sampleNormalized ∧
      sampleResult.remaining_futures ≤ total_futures sampleNormalized ∧
      sampleResult.remaining_cash ≤ total_cash sampleNormalized :=
  C1_stock_conservation sampleNormalized sampleResult processNormalized_sample

/-- C2 counterexample: the claim fails on the sample dataset.  The run
emits three OriginalCall rows (the sample has three Calls rows, not
two), and the UnmatchedPut rows are not a single 15000-at-1100 row: the
re-attribution pass yields two rows at strikes 1240 and 1230. -/
theorem C2_sample_counterexample :
    (process_portfolio load_sample_data).1 = some sampleResult ∧
      countRows sampleResult RowType.OriginalCall ≠ 2 ∧
      ¬ ((sampleResult.final_portfolio.filter
            (fun row => row.type == RowType.UnmatchedPut)).length = 1 ∧
          ∀ row ∈ sampleResult.final_portfolio.filter
            (fun row => row.type == RowType.UnmatchedPut),
            row.position = 15000 ∧ row.strike = some 1100) := by
  refine ⟨by rw [process_portfolio_sample], by decide, by decide⟩

/-- C2 amended: on the sample dataset the final portfolio has no
remaining Futures or Cash rows, six SyntheticCall rows, three
OriginalCall rows carrying the unchanged input strike, quantity and
price, and two UnmatchedPut rows, 5000 at strike 1240 and 10000 at
strike 1230 (the re-attribution walks the strikes from the top); the
transformation log does contain the UnmatchedPuts step for 15000 at
strike 1100. -/
theorem C2_sample_run :
    (process_portfolio load_sample_data).1 = some sampleResult ∧
      countRows sampleResult RowType.FuturesRow = 0 ∧
      countRows sampleResult RowType.CashRow = 0 ∧
      countRows sampleResult RowType.SyntheticCall = 6 ∧
      sampleResult.final_portfolio.filter
          (fun row => row.type == RowType.OriginalCall) =
        [⟨RowType.OriginalCall, some 1200, 100000, 12, 1200000, RiskType.CallLike⟩,
         ⟨RowType.OriginalCall, some 1250, 11000, 4, 44000, RiskType.CallLike⟩,
         ⟨RowType.OriginalCall, some 1150, 11000, 62, 682000, RiskType.CallLike⟩] ∧
      sampleResult.final_portfolio.filter
          (fun row => row.type == RowType.UnmatchedPut) =
        [⟨RowType.UnmatchedPut, some 1240, 5000, 60, 300000, RiskType.PutProtection⟩,
         ⟨RowType.UnmatchedPut, some 1230, 10000, 65, 650000,
           RiskType.PutProtection⟩] ∧
      (⟨Action.UnmatchedPuts, Source.Puts, 15000, 1100, 4, none⟩ : LogEntry) ∈
        sampleResult.transformation_log := by
  refine ⟨by rw [process_portfolio_sample], by decide, by decide, by decide,
    by decide, by decide, by decide⟩

/-- C3: per-lot put conservation fails in the code.  With 50 futures, a
100-lot put at strike 1200 and a 100-lot put at strike 1100, the engine
consumes 50 against the 1200 lot, but the re-attribution pass assigns
100 unmatched quantity to that same lot, so consumed plus attributed is
150, not the lot's original 100. -/
theorem C3_per_lot_conservation_fails :
    processNormalized misattributionFrame = some misattributionResult ∧
      (misattributionFrame.filter isPutRow).map Position.position =
        [100, 100] ∧
      synQtyAtStrike misattributionResult 1200 = 50 ∧
      unmatchedQtyAtStrike misattributionResult 1200 = 100 ∧
      synQtyAtStrike misattributionResult 1200 +
          unmatchedQtyAtStrike misattributionResult 1200 ≠ 100 := by
  have hsynfil : misattributionResult.synthetic_calls.filter
      (fun sc => sc.strike == (1200 : ℚ)) =
      [⟨1200, 50, 60, 3000, Source.Futures⟩] := by decide
  have hunmfil : misattributionResult.final_portfolio.filter
      (fun row => row.type == RowType.UnmatchedPut &&
        row.strike == some (1200 : ℚ)) =
      [⟨RowType.UnmatchedPut, some 1200, 100, 10, 1000,
        RiskType.PutProtection⟩] := by decide
  refine ⟨processNormalized_misattribution, by decide, ?_, ?_, ?_⟩ <;>
    norm_num [synQtyAtStrike, unmatchedQtyAtStrike, hsynfil, hunmfil]

/-- C4 counterexample: the run does not leave the caller's input records
unchanged: on the sample frame the Instrument fields come back
normalised (for example `Futures` becomes `futures`). -/
theorem C4_mutation_counterexample :
    (process_portfolio load_sample_data).2 ≠ load_sample_data := by decide

/-- C4 amended: a run mutates the caller's input only by normalising
each Instrument field in place; Position, Strike and Market price are
untouched.  Since the normalisation is idempotent, a second run on the
mutated input observes the same (already normalised) frame and returns
the same result, mutating nothing further. -/
theorem C4_mutation_and_idempotence (df : List Position) :
    (process_portfolio df).2 = normalizeFrame df ∧
      ((process_portfolio df).2).map Position.position =
        df.map Position.position ∧
      ((process_portfolio df).2).map Position.strike = df.map Position.strike ∧
      ((process_portfolio df).2).map Position.marketPrice =
        df.map Position.marketPrice ∧
      process_portfolio ((process_portfolio df).2) = process_portfolio df := by
  refine ⟨rfl, ?_, ?_, ?_, ?_⟩
  · show (normalizeFrame df).map Position.position = df.map Position.position
    unfold normalizeFrame
    rw [List.map_map]
    exact List.map_congr_left fun p _ => rfl
  · show (normalizeFrame df).map Position.strike = df.map Position.strike
    unfold normalizeFrame
    rw [List.map_map]
    exact List.map_congr_left fun p _ => rfl
  · show (normalizeFrame df).map Position.marketPrice =
      df.map Position.marketPrice
    unfold normalizeFrame
    rw [List.map_map]
    exact List.map_congr_left fun p _ => rfl
  · show process_portfolio (normalizeFrame df) = process_portfolio df
    unfold process_portfolio
    rw [normalizeFrame_normalizeFrame]

/-- C5: source priority.  Replaying any returned transformation log from
the initial futures balance, no CreateSyntheticCall entry drawn from
Cash occurs while the futures balance at that step is still positive. -/
theorem C5_source_priority (df : List Position) (r : RunResult)
    (h : processNormalized df = some r) :
    cashPriorityOk (total_futures df) r.transformation_log = true := by
  obtain ⟨u, -, rfl⟩ := processNormalized_eq_some h
  rw [assemble_log]
  exact allocLots_cashPriority u (sortPuts (df.filter isPutRow))
    ⟨total_futures df, total_cash df⟩

/-- C5 witness: the source-priority check run over the sample log. -/
theorem C5_source_priority_witness :
    cashPriorityOk (total_futures sampleNormalized)
      sampleResult.transformation_log = true :=
  C5_source_priority sampleNormalized sampleResult processNormalized_sample

/-- C6: strike order.  The `Put Strike` values of the
CreateSyntheticCall entries, in step order, are non-increasing. -/
theorem C6_strike_order (df : List Position) (r : RunResult)
    (h : processNormalized df = some r) :
    (createStrikes r.transformation_log).Pairwise (fun a b => b ≤ a) := by
  obtain ⟨u, -, rfl⟩ := processNormalized_eq_some h
  rw [assemble_log]
  unfold createStrikes
  have hsorted : (sortPuts (df.filter isPutRow)).Pairwise strikeDescRel :=
    List.sorted_insertionSort strikeDescRel (df.filter isPutRow)
  have hall := allocLots_strikes_desc u (sortPuts (df.filter isPutRow))
    ⟨total_futures df, total_cash df⟩ hsorted
  exact List.Pairwise.sublist
    ((List.filter_sublist _).map LogEntry.putStrike) hall

/-- C6 witness: the strike sequence of the sample log's
CreateSyntheticCall entries is non-increasing. -/
theorem C6_strike_order_witness :
    (createStrikes sampleResult.transformation_log).Pairwise
      (fun a b => b ≤ a) :=
  C6_strike_order sampleNormalized sampleResult processNormalized_sample

/-- C7: valuation.  Every CreateSyntheticCall log entry carries
`put_price + (underlying - strike)` as its synthetic value; the emitted
synthetic lots match those entries one for one in strike, quantity and
per-unit value; every synthetic lot's total value is quantity times
per-unit value; and every final-portfolio row's Total Value is
Position times Value per Unit, exactly. -/
theorem C7_valuation (df : List Position) (r : RunResult)
    (h : processNormalized df = some r) :
    (∀ e ∈ r.transformation_log, e.action = Action.CreateSyntheticCall →
        e.syntheticValue =
          some (e.putPrice + (r.underlying_price - e.putStrike))) ∧
      r.synthetic_calls.map
          (fun sc => (sc.strike, sc.position, some sc.valuePerUnit)) =
        (r.transformation_log.filter isCreateEntry).map
          (fun e => (e.putStrike, e.amount, e.syntheticValue)) ∧
      (∀ sc ∈ r.synthetic_calls,
        sc.totalValue = sc.position * sc.valuePerUnit) ∧
      (∀ row ∈ r.final_portfolio,
        row.totalValue = row.position * row.valuePerUnit) := by
  obtain ⟨u, -, rfl⟩ := processNormalized_eq_some h
  rw [assemble_log, assemble_syn, assemble_underlying]
  refine ⟨?_, ?_, ?_, ?_⟩
  · exact allocLots_log_create_vals u (sortPuts (df.filter isPutRow))
      ⟨total_futures df, total_cash df⟩
  · exact allocLots_map_eq u (sortPuts (df.filter isPutRow))
      ⟨total_futures df, total_cash df⟩
  · intro sc hsc
    exact (allocLots_syn_vals u (sortPuts (df.filter isPutRow))
      ⟨total_futures df, total_cash df⟩ sc hsc).1
  · exact assemble_rows_total df u

/-- C7 witness: the valuation facts evaluated on the sample run. -/
theorem C7_valuation_witness :
    (∀ e ∈ sampleResult.transformation_log,
        e.action = Action.CreateSyntheticCall →
        e.syntheticValue = some (e.putPrice +
          (sampleResult.underlying_price - e.putStrike))) ∧
      sampleResult.synthetic_calls.map
          (fun sc => (sc.strike, sc.position, some sc.valuePerUnit)) =
        (sampleResult.transformation_log.filter isCreateEntry).map
          (fun e => (e.putStrike, e.amount, e.syntheticValue)) ∧
      (∀ sc ∈ sampleResult.synthetic_calls,
        sc.totalValue = sc.position * sc.valuePerUnit) ∧
      (∀ row ∈ sampleResult.final_portfolio,
        row.totalValue = row.position * row.valuePerUnit) :=
  C7_valuation sampleNormalized sampleResult processNormalized_sample

/-- C8: underlying price resolution.  If the (normalised) frame has a
Futures row, the run succeeds and uses the first such row's market
price; otherwise if it has a Cash row, the first such row's market
price; otherwise the run returns `none` and nothing at all (no log, no
lots, no portfolio rows) is produced. -/
theorem C8_underlying_resolution (df : List Position) :
    (∀ f fs, df.filter isFuturesRow = f :: fs →
        processNormalized df = some (assemble df f.marketPrice) ∧
          (assemble df f.marketPrice).underlying_price = f.marketPrice) ∧
      (df.filter isFuturesRow = [] → ∀ c cs, df.filter isCashRow = c :: cs →
        processNormalized df = some (assemble df c.marketPrice) ∧
          (assemble df c.marketPrice).underlying_price = c.marketPrice) ∧
      (df.filter isFuturesRow = [] → df.filter isCashRow = [] →
        processNormalized df = none) := by
  refine ⟨?_, ?_, ?_⟩
  · intro f fs hf
    constructor
    · unfold processNormalized
      rw [hf, underlying_price_cons]
    · exact assemble_underlying df f.marketPrice
  · intro hf c cs hc
    constructor
    · unfold processNormalized
      rw [hf, hc, underlying_price_nil_cons]
    · exact assemble_underlying df c.marketPrice
  · intro hf hc
    unfold processNormalized
    rw [hf, hc]
    rfl

/-- C8 witness: on the sample frame the first futures row's price 1191
is used; on an empty frame the run fails and returns nothing. -/
theorem C8_underlying_resolution_witness :
    (processNormalized sampleNormalized =
        some (assemble sampleNormalized 1191) ∧
      (assemble sampleNormalized 1191).underlying_price = 1191) ∧
      processNormalized [] = none :=
  ⟨(C8_underlying_resolution sampleNormalized).1
      ⟨"futures".toList, 100000, none, 1191⟩ [] sample_futures_filter,
    (C8_underlying_resolution []).2.2 rfl rfl⟩

/-- C9 counterexample: a put with a NaN strike is skipped by the
allocation (the log and lots are empty here) but still contributes to
the output: the final portfolio contains an UnmatchedPut row of its full
quantity 100 with an empty strike. -/
theorem C9_nan_counterexample :
    processNormalized nanPutFrame = some nanPutResult ∧
      (∀ p ∈ nanPutFrame.filter isPutRow, p.strike = none) ∧
      nanPutResult.transformation_log = [] ∧
      (⟨RowType.UnmatchedPut, none, 100, 5, 500, RiskType.PutProtection⟩ :
          FinalRow) ∈ nanPutResult.final_portfolio :=
  ⟨processNormalized_nanPut, by decide, rfl, by decide⟩

/-- C9 amended: NaN-strike puts are never matched and never logged:
every transformation-log entry and every synthetic lot carries the
strike of some put row whose strike is present.  (They are, however,
counted into the unmatched-put total and can receive UnmatchedPut rows
in the final portfolio, as the counterexample shows.) -/
theorem C9_nan_strikes_skipped (df : List Position) (r : RunResult)
    (h : processNormalized df = some r) :
    (∀ e ∈ r.transformation_log,
        ∃ p ∈ df.filter isPutRow, p.strike = some e.putStrike) ∧
      (∀ sc ∈ r.synthetic_calls,
        ∃ p ∈ df.filter isPutRow, p.strike = some sc.strike) := by
  obtain ⟨u, -, rfl⟩ := processNormalized_eq_some h
  rw [assemble_log, assemble_syn]
  constructor
  · intro e he
    obtain ⟨lot, hl, hs⟩ := allocLots_log_strikes u (sortPuts
      (df.filter isPutRow)) ⟨total_futures df, total_cash df⟩ e he
    exact ⟨lot, (List.mem_insertionSort strikeDescRel).mp hl, hs⟩
  · intro sc hsc
    obtain ⟨lot, hl, hs⟩ := allocLots_syn_strikes u (sortPuts
      (df.filter isPutRow)) ⟨total_futures df, total_cash df⟩ sc hsc
    exact ⟨lot, (List.mem_insertionSort strikeDescRel).mp hl, hs⟩

/-- C9 witness: on the sample run every log entry and every synthetic
lot carries the strike of an input put row. -/
theorem C9_nan_strikes_skipped_witness :
    (∀ e ∈ sampleResult.transformation_log,
        ∃ p ∈ sampleNormalized.filter isPutRow,
          p.strike = some e.putStrike) ∧
      (∀ sc ∈ sampleResult.synthetic_calls,
        ∃ p ∈ sampleNormalized.filter isPutRow,
          p.strike = some sc.strike) :=
  C9_nan_strikes_skipped sampleNormalized sampleResult processNormalized_sample

/-- C10: the inner allocation loop, a total function by the measure
argument of `allocLot`, exits only with its guard false (the lot is
exhausted or both ledger sources are), appends at most two
CreateSyntheticCall steps for the lot, and at most one of them is drawn
from Futures and at most one from Cash. -/
theorem C10_lot_loop_bound (u strike price p : ℚ) (led : Ledger) :
    ¬ (0 < (allocLot u strike price p led).leftover ∧
        (0 < (allocLot u strike price p led).led.fut ∨
          0 < (allocLot u strike price p led).led.cash)) ∧
      (allocLot u strike price p led).log.length ≤ 2 ∧
      countSource (allocLot u strike price p led).log Source.Futures ≤ 1 ∧
      countSource (allocLot u strike price p led).log Source.Cash ≤ 1 ∧
      (∀ e ∈ (allocLot u strike price p led).log,
        e.action = Action.CreateSyntheticCall) :=
  ⟨allocLot_exit u strike price p led, allocLot_log_len u strike price p led,
    allocLot_countF_le u strike price p led,
    allocLot_countC_le u strike price p led,
    fun e he => (allocLot_log_all u strike price p led e he).1⟩

end SCT
